import Mathlib

/-!
Shallow embedding of the progress-tracking and live-rendering subsystem of
`disk.py` (a disk format progress monitor), together with proofs of the
specification claims about it.

Conventions:
* Python floats are modelled as exact rationals (`ℚ`).  Parsed percentages are
  built with `mkRat`, which denotes the same exact value as the source's
  `float(...)` conversions of decimal literals and integer ratios.
* Python strings are `String` / `List Char`; the regular expressions of the
  source are modelled by explicit scanning functions with the same matching
  semantics (leftmost match, greedy quantifiers, the exact character classes).
* The two external `sg_requests` invocations of one poll round are modelled by
  `InvResult`: a captured text, a timeout (the only exception the source
  catches), or a command that cannot be started at all (any other exception,
  which the source does not catch).  `_poll` returns `Except Unit`, where
  `Except.error ()` models an exception propagating out of `_poll`, and the
  second component of a successful result counts the external command
  invocations performed for the device in that round.
-/

/-- `fmt_duration`-helper: Python `f"{n:02d}"` zero padding for `n < 100`. -/
def pad2 (n : Nat) : String := if n < 10 then "0" ++ toString n else toString n

/-- disk.py `fmt_duration` (lines 69-75): seconds → "1h 02m 03s" / "2m 03s" / "5s".
`(Rat.floor secs).toNat` computes Python's `max(0, int(secs))`: both are `0` for
negative inputs and truncate nonnegative inputs. -/
def fmt_duration (secs : ℚ) : String :=
  let t : Nat := (Rat.floor secs).toNat
  let h := t / 3600
  let m := t % 3600 / 60
  let s := t % 3600 % 60
  if h ≠ 0 then toString h ++ "h " ++ pad2 m ++ "m " ++ pad2 s ++ "s"
  else if m ≠ 0 then toString m ++ "m " ++ pad2 s ++ "s"
  else toString s ++ "s"

/-- Python regex `\s` (ASCII): space, tab, newline, carriage return, form feed,
vertical tab. -/
def isSpaceChar (c : Char) : Bool :=
  c == ' ' || c == '\t' || c == '\n' || c == '\r' || c == '\x0c' || c == '\x0b'

/-- Python regex `\w` (ASCII): letters, digits, underscore. -/
def isWordChar (c : Char) : Bool := c.isAlpha || c.isDigit || c == '_'

/-- Numeric value of a string of decimal digits. -/
def natOfDigits (ds : List Char) : Nat :=
  ds.foldl (fun n c => n * 10 + (c.toNat - 48)) 0

/-- Exact value of the decimal literal `d1.d2` (or `d1` when `d2 = []`), the
value Python's `float(m.group(1))` denotes for the matched text. -/
def ratOfDigits (d1 d2 : List Char) : ℚ :=
  mkRat (natOfDigits d1 * 10 ^ d2.length + natOfDigits d2) (10 ^ d2.length)

/-- After the digits of `(\d+(?:\.\d+)?)`, the regex `\s*%` must match:
skip whitespace greedily, then require a literal `%`. -/
def pctFollows (cs : List Char) : Bool :=
  match cs.dropWhile isSpaceChar with
  | '%' :: _ => true
  | _ => false

/-- One anchored match attempt of `(\d+(?:\.\d+)?)\s*%` (disk.py line 362).
Greedy `\d+` must take the maximal digit run: giving digits back always fails
because the next character is then a digit, which neither `.`, `\s` nor `%`
accepts.  If `.` follows with at least one digit, the optional group must be
taken; if `\s*%` then fails, skipping the group also fails (the character after
the integer digits is `.`, not whitespace or `%`), so the attempt fails. -/
def pctMatchAt (cs : List Char) : Option ℚ :=
  let d1 := cs.takeWhile Char.isDigit
  let r1 := cs.dropWhile Char.isDigit
  if d1.isEmpty then none
  else
    match r1 with
    | '.' :: r2 =>
      let d2 := r2.takeWhile Char.isDigit
      if d2.isEmpty then none
      else if pctFollows (r2.dropWhile Char.isDigit) then some (ratOfDigits d1 d2)
      else none
    | _ => if pctFollows r1 then some (ratOfDigits d1 []) else none

/-- `re.search` of `(\d+(?:\.\d+)?)\s*%`: leftmost successful match attempt. -/
def pctSearch : List Char → Option ℚ
  | [] => none
  | c :: rest =>
    match pctMatchAt (c :: rest) with
    | some p => some p
    | none => pctSearch rest

/-- The trailing `\b` of the ratio regex: the match ends at the end of the text
or before a non-word character. -/
def wordBoundaryAfter : List Char → Bool
  | [] => true
  | c :: _ => !(isWordChar c)

/-- The alternation `(65535|65536)\b` of disk.py line 366, tried left to right. -/
def denomAt (cs : List Char) : Option Nat :=
  if "65535".data.isPrefixOf cs && wordBoundaryAfter (cs.drop 5) then some 65535
  else if "65536".data.isPrefixOf cs && wordBoundaryAfter (cs.drop 5) then some 65536
  else none

/-- One anchored match attempt of `(\d{1,5})\s*/\s*(65535|65536)\b` after the
leading `\b` (disk.py line 366).  A digit run longer than 5 fails: the greedy
`\d{1,5}` leaves a digit next, which `\s*` and `/` reject, and shorter
backtracks do the same.  The resulting percentage `A/B*100` is the exact value
`mkRat (A*100) B`. -/
def ratioMatchAt (cs : List Char) : Option ℚ :=
  let d := cs.takeWhile Char.isDigit
  let r1 := cs.dropWhile Char.isDigit
  if d.isEmpty || 5 < d.length then none
  else
    match r1.dropWhile isSpaceChar with
    | '/' :: r2 =>
      match denomAt (r2.dropWhile isSpaceChar) with
      | some b => some (mkRat (natOfDigits d * 100) b)
      | none => none
    | _ => none

/-- The leading `\b` before `\d{1,5}`: since the first matched character is a
digit (a word character), the boundary holds iff the preceding character is
absent or a non-word character. -/
def boundaryBefore : Option Char → Bool
  | none => true
  | some p => !(isWordChar p)

/-- `re.search` of `\b(\d{1,5})\s*/\s*(65535|65536)\b`: scan left to right,
tracking the previous character for the `\b` test. -/
def ratioSearchAux : Option Char → List Char → Option ℚ
  | _, [] => none
  | prev, c :: rest =>
    match (if boundaryBefore prev then ratioMatchAt (c :: rest) else none) with
    | some p => some p
    | none => ratioSearchAux (some c) rest

/-- Leftmost match of the ratio regex on a whole text. -/
def ratioSearch (cs : List Char) : Option ℚ := ratioSearchAux none cs

/-- `needle` occurs as a contiguous subsequence of the text. -/
def containsSeq (needle : List Char) : List Char → Bool
  | [] => needle.isEmpty
  | c :: rest => needle.isPrefixOf (c :: rest) || containsSeq needle rest

/-- ASCII lowercasing of a text, modelling `re.I` matching of the source's
all-lowercase ASCII keyword patterns. -/
def lowerChars (out : String) : List Char := out.data.map Char.toLower

/-- disk.py line 360: `re.search(r"progress indication|format in progress", output, re.I)`. -/
def containsProgressMarker (out : String) : Bool :=
  containsSeq "progress indication".data (lowerChars out) ||
  containsSeq "format in progress".data (lowerChars out)

/-- disk.py line 380: `re.search(r"error|fail", output, re.I)`. -/
def containsErrorKeyword (out : String) : Bool :=
  containsSeq "error".data (lowerChars out) || containsSeq "fail".data (lowerChars out)

/-- disk.py lines 361-368: percentage extraction for a progress round; a literal
`NN[.N]%` match is used first, and only if none exists is the `A/(65535|65536)`
ratio tried. -/
def extract_pct (out : String) : Option ℚ :=
  match pctSearch out.data with
  | some p => some p
  | none => ratioSearch out.data

/-- The four values of `DevState.status` in disk.py. -/
inductive Status where
  | waiting
  | formatting
  | done
  | failed
deriving DecidableEq, Repr

/-- disk.py `DevState` (lines 321-334): the mutable per-device poll state.  The
immutable identity fields (path, slot, model, serial), which `_poll` only reads
for log messages, are omitted. -/
structure DevState where
  status : Status
  ever_started : Bool
  progress : ℚ
  eta : String
  start : ℚ
  prev_pct : ℚ
  prev_time : ℚ
deriving DecidableEq, Repr

/-- Outcome of one `subprocess.run` invocation in `_poll` (lines 349-353):
captured text (stdout+stderr), a timeout (`subprocess.TimeoutExpired`, the only
caught exception), or a failure to start the command at all (an uncaught
exception such as `FileNotFoundError`). -/
inductive InvResult where
  | ok (text : String)
  | timeout
  | unavailable
deriving DecidableEq, Repr

/-- The invocation loop of `_poll` (lines 344-353): collect the captured texts
in order, skip timeouts, and propagate any other exception immediately. -/
def collectOutputs : List InvResult → Except Unit (List String)
  | [] => Except.ok []
  | InvResult.ok t :: rest => (collectOutputs rest).map (fun ts => t :: ts)
  | InvResult.timeout :: rest => collectOutputs rest
  | InvResult.unavailable :: _ => Except.error ()

/-- Python `"\n".join(outputs)` (line 358). -/
def joinNL : List String → String
  | [] => ""
  | [t] => t
  | t :: rest => t ++ "\n" ++ joinNL rest

/-- disk.py lines 360-389: classify one round's combined text and update the
state.  `now` is the `time.monotonic()` value captured inside the progress
branch. -/
def pollCore (s : DevState) (now : ℚ) (output : String) : DevState :=
  if containsProgressMarker output then
    let s1 := { s with ever_started := true, status := Status.formatting }
    match extract_pct output with
    | none => s1
    | some pct =>
      let dt := now - s.prev_time
      let dp := pct - s.prev_pct
      { s1 with
        eta := if dt > 0 ∧ dp > 0 then fmt_duration ((100 - pct) / (dp / dt)) else "--",
        prev_pct := pct,
        prev_time := now,
        progress := max 0 (min 100 pct) }
  else if containsErrorKeyword output then
    { s with status := Status.failed, progress := 0, eta := "--" }
  else if s.ever_started then
    { s with status := Status.done, progress := 100, eta := "done" }
  else s

/-- disk.py `_poll` (lines 340-389).  The two `sg_requests` invocations of the
round are `i1` and `i2`; the `Nat` component counts external command
invocations performed for this device in this round. -/
def _poll (s : DevState) (now : ℚ) (i1 i2 : InvResult) : Except Unit (DevState × Nat) :=
  if s.status = Status.done ∨ s.status = Status.failed then Except.ok (s, 0)
  else
    match collectOutputs [i1, i2] with
    | Except.error e => Except.error e
    | Except.ok outs =>
      if outs.isEmpty then Except.ok (s, 2)
      else Except.ok (pollCore s now (joinNL outs), 2)

/-- The two poll-interval keys of `_progress_ui` (disk.py lines 496-497). -/
inductive UIKey where
  | plus
  | minus
deriving DecidableEq, Repr

/-- disk.py lines 496-497: `+` does `interval = min(60, interval + 1)`, `-`
does `interval = max(1, interval - 1)`. -/
def applyKey (interval : Int) : UIKey → Int
  | UIKey.plus => min 60 (interval + 1)
  | UIKey.minus => max 1 (interval - 1)

/-- The poll interval after a sequence of `+`/`-` keys, starting from the
initial `interval = 5` of `_progress_ui` (disk.py line 393). -/
def runKeys (ks : List UIKey) : Int := ks.foldl applyKey 5

/-- A device poll state that has completed: used as concrete test input. -/
def exDone : DevState := ⟨Status.done, true, 100, "done", 0, 80, 5⟩

/-- A freshly constructed device poll state (disk.py lines 328-334). -/
def exWaiting : DevState := ⟨Status.waiting, false, 0, "--", 0, 0, 0⟩

/-- A device poll state mid-format at 50%: used as concrete test input. -/
def exFormatting : DevState := ⟨Status.formatting, true, 50, "--", 0, 50, 0⟩

/-- A device poll state at 20% with sample time 0: used as concrete test input. -/
def exEta : DevState := ⟨Status.formatting, true, 20, "--", 0, 20, 0⟩

/-- A formatting state at 50% whose last sample was (50%, time 1). -/
def c2Before : DevState := ⟨Status.formatting, true, 50, "--", 0, 50, 1⟩

/-- The state `_poll` produces from `c2Before` when the round text reports 40%. -/
def c2After : DevState := ⟨Status.formatting, true, 40, "--", 0, 40, 1⟩

/-- The state a no-signal round produces from `c2Before` (implicit completion). -/
def c2WitnessAfter : DevState := ⟨Status.done, true, 100, "done", 0, 50, 1⟩

/-- The character class `[0-9;]` of the color-control regex. -/
def isParam (c : Char) : Bool := c.isDigit || c == ';'

/-- disk.py line 300: `_ANSI_ESC = re.compile(r'\033\[[0-9;]*[A-Za-z]')`, as an
anchored match attempt: on success, the matched sequence and the remaining
text.  The greedy `[0-9;]*` with a required trailing letter needs no
backtracking: a shorter parameter run ends at a parameter character, which is
never a letter. -/
def ansiMatch : List Char → Option (List Char × List Char)
  | c1 :: c2 :: rest =>
    if c1 = '\x1b' ∧ c2 = '[' then
      match rest.dropWhile isParam with
      | a :: r =>
        if a.isAlpha then some ('\x1b' :: '[' :: (rest.takeWhile isParam ++ [a]), r)
        else none
      | [] => none
    else none
  | _ => none

/-- Fuel-bounded form of the `_vis_trunc` scanning loop (disk.py lines 303-315):
consume a whole control sequence (always kept), or stop at a plain character
once `visible >= width`, else keep it.  Every iteration consumes at least one
character, so `s.length` fuel computes the loop exactly. -/
def visTruncF (width : Nat) : Nat → List Char → Nat → List Char
  | 0, _, _ => []
  | fuel + 1, s, visible =>
    match ansiMatch s with
    | some mr => mr.1 ++ visTruncF width fuel mr.2 visible
    | none =>
      match s with
      | [] => []
      | c :: rest =>
        if width ≤ visible then []
        else c :: visTruncF width fuel rest (visible + 1)

/-- The `_vis_trunc` loop: the collected `result` as a function of the
remaining text and the running visible count. -/
def visTruncGo (width : Nat) (s : List Char) (visible : Nat) : List Char :=
  visTruncF width s.length s visible

/-- Fuel-bounded removal of all color-control sequences from a text: what
remains are the visible characters, in the sense of the source's
`_ANSI_ESC` regex read left to right. -/
def stripAnsiF : Nat → List Char → List Char
  | 0, _ => []
  | fuel + 1, s =>
    match ansiMatch s with
    | some mr => stripAnsiF fuel mr.2
    | none =>
      match s with
      | [] => []
      | c :: rest => c :: stripAnsiF fuel rest

/-- The visible characters of a text: everything outside control sequences. -/
def stripAnsi (s : List Char) : List Char := stripAnsiF s.length s

/-- Visible length: the character count excluding control sequences. -/
def visLen (s : List Char) : Nat := (stripAnsi s).length

/-- Fuel-bounded decomposition of a text into the tokens the `_vis_trunc` loop
consumes: complete color-control sequences and single plain characters. -/
def tokenizeF : Nat → List Char → List (List Char)
  | 0, _ => []
  | fuel + 1, s =>
    match ansiMatch s with
    | some mr => mr.1 :: tokenizeF fuel mr.2
    | none =>
      match s with
      | [] => []
      | c :: rest => [c] :: tokenizeF fuel rest

/-- The token decomposition of a text. -/
def tokenize (s : List Char) : List (List Char) := tokenizeF s.length s

/-- The reset sequence `'\033[0m'` appended at disk.py line 318. -/
def ansiReset : List Char := '\x1b' :: '[' :: '0' :: 'm' :: []

/-- disk.py `_vis_trunc` (lines 302-319): scan the text, keeping every complete
control sequence and at most `width` plain characters, stopping at the first
plain character beyond the budget; append a reset sequence when the kept text
contains an escape character. -/
def _vis_trunc (s : List Char) (width : Nat) : List Char :=
  let result := visTruncGo width s 0
  if result.contains '\x1b' then result ++ ansiReset else result

example : extract_pct "foo 42.5% bar" = some (mkRat 425 10) := by decide

example : extract_pct "x 12345/65535 y" = some (mkRat 1234500 65535) := by decide

example : extract_pct "x 12345/65535 and 7% y" = some (mkRat 70 10) := by decide

example : containsProgressMarker "Progress Indication: 50%" = true := by decide

example : containsErrorKeyword "a FAILure" = true := by decide

example : pctSearch "1.2.3%".data = some (mkRat 23 10) := by decide

example : ratioSearch "123456/65535".data = none := by decide

example : ratioSearch "1/655351".data = none := by decide

example : fmt_duration 10 = "10s" := by decide

example : fmt_duration 3723 = "1h 02m 03s" := by decide

/-- C1: for every device poll state whose status is `done` or `failed`, any
subsequent `_poll` call leaves the state completely unchanged (all fields keep
their values) and invokes no external command for that device. -/
theorem c1_terminal_poll_unchanged (s : DevState) (now : ℚ) (i1 i2 : InvResult)
    (h : s.status = Status.done ∨ s.status = Status.failed) :
    _poll s now i1 i2 = Except.ok (s, 0) := by
  unfold _poll
  rw [if_pos h]

/-- C1 witness: a `done` state is returned unchanged with zero invocations,
even when an invocation would have failed to start. -/
theorem c1_terminal_poll_unchanged_witness :
    (exDone.status = Status.done ∨ exDone.status = Status.failed)
    ∧ _poll exDone 7 InvResult.unavailable (InvResult.ok "error") = Except.ok (exDone, 0) :=
  ⟨by decide, c1_terminal_poll_unchanged exDone 7 InvResult.unavailable (InvResult.ok "error") (by decide)⟩

/-- C3: a text containing a progress marker is classified as progress even when
it also contains an error/failure keyword: applying the round to any state
yields status `formatting`, never `failed`. -/
theorem c3_marker_beats_error (s : DevState) (now : ℚ) (out : String)
    (hp : containsProgressMarker out = true) (he : containsErrorKeyword out = true) :
    (pollCore s now out).status = Status.formatting
    ∧ (pollCore s now out).status ≠ Status.failed := by
  have hst : (pollCore s now out).status = Status.formatting := by
    unfold pollCore
    rw [hp]
    cases hx : extract_pct out <;> simp
  exact ⟨hst, by rw [hst]; simp⟩

/-- C3 witness: a round text with both a progress marker and an error keyword
yields `formatting`. -/
theorem c3_marker_beats_error_witness :
    (containsProgressMarker "Format in progress (previous error log)" = true)
    ∧ (containsErrorKeyword "Format in progress (previous error log)" = true)
    ∧ ((pollCore exWaiting 1 "Format in progress (previous error log)").status = Status.formatting
       ∧ (pollCore exWaiting 1 "Format in progress (previous error log)").status ≠ Status.failed) :=
  ⟨by decide, by decide,
    c3_marker_beats_error exWaiting 1 "Format in progress (previous error log)" (by decide) (by decide)⟩

/-- C4: a `waiting` state with `ever_started = false` is left unchanged by a
round text with no progress marker and no error keyword, and on such marker-free
text a transition to `done` can only happen when `ever_started` was already
true. -/
theorem c4_implicit_done_needs_start (s : DevState) (now : ℚ) (out : String)
    (hw : s.status = Status.waiting)
    (hp : containsProgressMarker out = false) (he : containsErrorKeyword out = false) :
    (s.ever_started = false → pollCore s now out = s)
    ∧ ((pollCore s now out).status = Status.done → s.ever_started = true) := by
  constructor
  · intro hes
    unfold pollCore
    rw [hp, he, hes]
    simp
  · intro hd
    by_cases hes : s.ever_started = true
    · exact hes
    · exfalso
      rw [Bool.not_eq_true] at hes
      unfold pollCore at hd
      rw [hp, he, hes] at hd
      simp at hd
      rw [hd] at hw
      exact absurd hw (by simp)

/-- C4 witness: a never-started waiting device stays `waiting` on silence. -/
theorem c4_implicit_done_needs_start_witness :
    (exWaiting.status = Status.waiting)
    ∧ (containsProgressMarker "nothing to report" = false)
    ∧ (containsErrorKeyword "nothing to report" = false)
    ∧ ((exWaiting.ever_started = false → pollCore exWaiting 2 "nothing to report" = exWaiting)
       ∧ ((pollCore exWaiting 2 "nothing to report").status = Status.done → exWaiting.ever_started = true)) :=
  ⟨by decide, by decide, by decide,
    c4_implicit_done_needs_start exWaiting 2 "nothing to report" (by decide) (by decide) (by decide)⟩

/-- C5: on a progress event carrying a percentage `pct`, the ETA is computed by
the rate formula only when `dp = pct - prev_pct > 0` and `dt = now - prev_time
> 0` both hold; in every other case the eta field is set to the unknown
sentinel `"--"`, so the rate division is guarded by a strictly positive
numerator and denominator. -/
theorem c5_eta_guard (s : DevState) (now : ℚ) (out : String) (pct : ℚ)
    (hp : containsProgressMarker out = true) (hx : extract_pct out = some pct) :
    (pollCore s now out).eta =
      if now - s.prev_time > 0 ∧ pct - s.prev_pct > 0
      then fmt_duration ((100 - pct) / ((pct - s.prev_pct) / (now - s.prev_time)))
      else "--" := by
  unfold pollCore
  rw [hp, hx]
  simp

/-- C5 witness: at 60% after starting from 20% at time 0, polled at time 10. -/
theorem c5_eta_guard_witness :
    (containsProgressMarker "Format in progress 60%" = true)
    ∧ (extract_pct "Format in progress 60%" = some (mkRat 600 10))
    ∧ ((pollCore exEta 10 "Format in progress 60%").eta =
        if (10 : ℚ) - exEta.prev_time > 0 ∧ mkRat 600 10 - exEta.prev_pct > 0
        then fmt_duration ((100 - mkRat 600 10) / ((mkRat 600 10 - exEta.prev_pct) / ((10 : ℚ) - exEta.prev_time)))
        else "--") :=
  ⟨by decide, by decide,
    c5_eta_guard exEta 10 "Format in progress 60%" (mkRat 600 10) (by decide) (by decide)⟩

/-- C7: percentage extraction precedence.  A successful literal `NN[.N]%` match
is always used as is; the `A/(65535|65536)` ratio is consulted only when no
literal percent matches.  Concretely, a text containing `42.5%` (and a ratio)
yields `42.5`, and a text containing `12345/65535` and no literal `%` yields
`12345/65535*100`. -/
theorem c7_extraction_precedence :
    (∀ (out : String) (p : ℚ), pctSearch out.data = some p → extract_pct out = some p)
    ∧ (∀ out : String, pctSearch out.data = none → extract_pct out = ratioSearch out.data)
    ∧ extract_pct "sense data 42.5% now 12345/65535" = some (42.5 : ℚ)
    ∧ extract_pct "Format in progress: 12345/65535 remaining" = some ((12345 : ℚ) / 65535 * 100) := by
  refine ⟨?_, ?_, ?_, ?_⟩
  · intro out p h
    unfold extract_pct
    rw [h]
  · intro out h
    unfold extract_pct
    rw [h]
  · have h : extract_pct "sense data 42.5% now 12345/65535" = some (mkRat 425 10) := by decide
    rw [h]
    norm_num [Rat.mkRat_eq_div]
  · have h : extract_pct "Format in progress: 12345/65535 remaining" = some (mkRat 1234500 65535) := by
      decide
    rw [h]
    rw [Rat.mkRat_eq_div]
    norm_num

/-- C7 witness: the literal-percent branch and the ratio fallback branch, each
exercised on a concrete input. -/
theorem c7_extraction_precedence_witness :
    (pctSearch "sense data 42.5% now 12345/65535".data = some (mkRat 425 10)
      ∧ extract_pct "sense data 42.5% now 12345/65535" = some (mkRat 425 10))
    ∧ (pctSearch "Format in progress: 12345/65535 remaining".data = none
      ∧ extract_pct "Format in progress: 12345/65535 remaining"
          = ratioSearch "Format in progress: 12345/65535 remaining".data) :=
  ⟨⟨by decide, c7_extraction_precedence.1 "sense data 42.5% now 12345/65535" (mkRat 425 10) (by decide)⟩,
   ⟨by decide, c7_extraction_precedence.2.1 "Format in progress: 12345/65535 remaining" (by decide)⟩⟩

/-- C9: starting from the initial interval 5, every sequence of `+`/`-` key
actions leaves the poll interval an integer within `[1, 60]`. -/
theorem c9_interval_clamped (ks : List UIKey) :
    1 ≤ runKeys ks ∧ runKeys ks ≤ 60 := by
  have aux : ∀ (ks : List UIKey) (iv : Int), 1 ≤ iv → iv ≤ 60 →
      1 ≤ ks.foldl applyKey iv ∧ ks.foldl applyKey iv ≤ 60 := by
    intro ks
    induction ks with
    | nil => intro iv h1 h2; exact ⟨h1, h2⟩
    | cons k rest ih =>
      intro iv h1 h2
      apply ih
      · cases k <;> simp [applyKey] <;> omega
      · cases k <;> simp [applyKey] <;> omega
  exact aux ks 5 (by decide) (by decide)

/-- C10: a round in which both invocations time out captures no text and leaves
any state entirely unchanged — in particular it never triggers the implicit
`done` transition — whereas a round in which one invocation returns (even
empty) output does trigger it for a started formatting device. -/
theorem c10_double_timeout_no_change :
    (∀ (s : DevState) (now : ℚ),
      _poll s now InvResult.timeout InvResult.timeout =
        Except.ok (s, if s.status = Status.done ∨ s.status = Status.failed then 0 else 2))
    ∧ _poll exFormatting 3 (InvResult.ok "") InvResult.timeout =
        Except.ok (⟨Status.done, true, 100, "done", 0, 50, 0⟩, 2) := by
  constructor
  · intro s now
    unfold _poll
    split
    · rfl
    · rfl
  · rfl

/-- C2 counterexample: from a `formatting` state at progress 50, a round text
reporting 40% leaves the status `formatting` but lowers `progress` to 40: the
progress field does regress while the status stays `formatting`. -/
theorem c2_counterexample :
    _poll c2Before 1 (InvResult.ok "Format in progress: 40% done") InvResult.timeout
      = Except.ok (c2After, 2)
    ∧ c2Before.status = Status.formatting
    ∧ c2After.status = Status.formatting
    ∧ c2After.progress < c2Before.progress := by
  refine ⟨?_, rfl, rfl, by norm_num [c2After, c2Before]⟩
  have h1 : containsProgressMarker "Format in progress: 40% done" = true := by decide
  have h2 : extract_pct "Format in progress: 40% done" = some (mkRat 400 10) := by decide
  have h3 : collectOutputs [InvResult.ok "Format in progress: 40% done", InvResult.timeout]
      = Except.ok ["Format in progress: 40% done"] := rfl
  unfold _poll
  rw [if_neg (by decide), h3]
  show Except.ok (pollCore c2Before 1 "Format in progress: 40% done", 2) = _
  unfold pollCore
  rw [h1, h2]
  have h4 : mkRat 400 10 = (40 : ℚ) := by rw [Rat.mkRat_eq_div]; norm_num
  simp only [h4]
  norm_num [c2Before, c2After]

/-- Case analysis of one applied poll round from a `formatting` state: either
the status stays `formatting` and the progress is unchanged or set to the
clamped reported percentage (which always lies in `[0, 100]` but may be lower
than before), or the device fails with progress 0, or completes with progress
100. -/
theorem pollCore_formatting_progress (s : DevState) (now : ℚ) (out : String)
    (hs : s.status = Status.formatting) :
    ((pollCore s now out).status = Status.formatting
      ∧ ((pollCore s now out).progress = s.progress
         ∨ (0 ≤ (pollCore s now out).progress ∧ (pollCore s now out).progress ≤ 100)))
    ∨ ((pollCore s now out).status = Status.failed ∧ (pollCore s now out).progress = 0)
    ∨ ((pollCore s now out).status = Status.done ∧ (pollCore s now out).progress = 100) := by
  rcases Bool.eq_false_or_eq_true (containsProgressMarker out) with hp | hp
  · left
    unfold pollCore
    rw [hp]
    cases hx : extract_pct out
    · simp
    · constructor
      · simp
      · right
        constructor
        · simp
        · simp
  · rcases Bool.eq_false_or_eq_true (containsErrorKeyword out) with he | he
    · right; left
      unfold pollCore
      rw [hp, he]
      simp
    · rcases Bool.eq_false_or_eq_true s.ever_started with hes | hes
      · right; right
        unfold pollCore
        rw [hp, he, hes]
        simp
      · left
        unfold pollCore
        rw [hp, he, hes]
        simp [hs]

/-- C2 amended: for a `formatting` state, a successful poll round either keeps
the progress unchanged, or sets it to the clamped reported percentage — always
within `[0, 100]` but possibly lower than the previous value — or moves to a
terminal state with progress 0 (`failed`) or 100 (`done`). -/
theorem c2_amended_progress_clamped (s s' : DevState) (now : ℚ) (i1 i2 : InvResult) (n : Nat)
    (hs : s.status = Status.formatting)
    (h : _poll s now i1 i2 = Except.ok (s', n)) :
    (s'.status = Status.formatting
      ∧ (s'.progress = s.progress ∨ (0 ≤ s'.progress ∧ s'.progress ≤ 100)))
    ∨ (s'.status = Status.failed ∧ s'.progress = 0)
    ∨ (s'.status = Status.done ∧ s'.progress = 100) := by
  unfold _poll at h
  rw [if_neg (by rw [hs]; simp)] at h
  rcases hc : collectOutputs [i1, i2] with e | outs
  · rw [hc] at h
    exact absurd h (by simp)
  · rw [hc] at h
    rcases outs with _ | ⟨t, ts⟩
    · simp only [List.isEmpty_nil, if_true, Except.ok.injEq, Prod.mk.injEq] at h
      have hs' : s' = s := h.1.symm
      rw [hs', hs]
      exact Or.inl ⟨rfl, Or.inl rfl⟩
    · simp only [List.isEmpty_cons, Bool.false_eq_true, if_false, Except.ok.injEq,
        Prod.mk.injEq] at h
      have hs' : s' = pollCore s now (joinNL (t :: ts)) := h.1.symm
      rw [hs']
      exact pollCore_formatting_progress s now (joinNL (t :: ts)) hs

/-- C2 amended witness: the amended statement applied to a concrete round. -/
theorem c2_amended_progress_clamped_witness :
    (c2Before.status = Status.formatting)
    ∧ (_poll c2Before 2 (InvResult.ok "quiet") InvResult.timeout = Except.ok (c2WitnessAfter, 2))
    ∧ ((c2WitnessAfter.status = Status.formatting
        ∧ (c2WitnessAfter.progress = c2Before.progress
           ∨ (0 ≤ c2WitnessAfter.progress ∧ c2WitnessAfter.progress ≤ 100)))
      ∨ (c2WitnessAfter.status = Status.failed ∧ c2WitnessAfter.progress = 0)
      ∨ (c2WitnessAfter.status = Status.done ∧ c2WitnessAfter.progress = 100)) :=
  ⟨rfl, rfl,
    c2_amended_progress_clamped c2Before c2WitnessAfter 2 (InvResult.ok "quiet") InvResult.timeout 2
      rfl rfl⟩

/-- C6 counterexample: for a non-terminal state, an invocation that cannot be
started at all (any exception other than a timeout) propagates out of `_poll`
instead of being treated as `NoSignal`: the source catches only
`subprocess.TimeoutExpired`. -/
theorem c6_counterexample :
    _poll exWaiting 0 InvResult.unavailable (InvResult.ok "Format in progress 10%")
      = Except.error () := rfl

/-- C6 amended: `_poll` never raises when every invocation either returns or
times out — and a timed-out invocation contributes no text, the round
continuing on the other invocation's text alone — but an invocation that
cannot be started at all is not tolerated (see `c6_counterexample`). -/
theorem c6_amended_timeout_tolerated :
    (∀ (s : DevState) (now : ℚ) (i1 i2 : InvResult),
        i1 ≠ InvResult.unavailable → i2 ≠ InvResult.unavailable →
        ∃ r, _poll s now i1 i2 = Except.ok r)
    ∧ (∀ (s : DevState) (now : ℚ) (t : String),
        ¬(s.status = Status.done ∨ s.status = Status.failed) →
        _poll s now InvResult.timeout (InvResult.ok t) = Except.ok (pollCore s now t, 2)
        ∧ _poll s now (InvResult.ok t) InvResult.timeout = Except.ok (pollCore s now t, 2)) := by
  constructor
  · intro s now i1 i2 h1 h2
    unfold _poll
    split
    · exact ⟨(s, 0), rfl⟩
    · cases i1 with
      | unavailable => exact absurd rfl h1
      | ok t1 =>
        cases i2 with
        | unavailable => exact absurd rfl h2
        | ok t2 => exact ⟨(pollCore s now (joinNL [t1, t2]), 2), rfl⟩
        | timeout => exact ⟨(pollCore s now (joinNL [t1]), 2), rfl⟩
      | timeout =>
        cases i2 with
        | unavailable => exact absurd rfl h2
        | ok t2 => exact ⟨(pollCore s now (joinNL [t2]), 2), rfl⟩
        | timeout => exact ⟨(s, 2), rfl⟩
  · intro s now t hnt
    constructor
    · unfold _poll
      rw [if_neg hnt]
      rfl
    · unfold _poll
      rw [if_neg hnt]
      rfl

/-- C6 amended witness: a round of two tolerated invocations, and a round in
which the first invocation times out while the second returns text. -/
theorem c6_amended_timeout_tolerated_witness :
    (InvResult.timeout ≠ InvResult.unavailable
      ∧ InvResult.ok "x" ≠ InvResult.unavailable
      ∧ ∃ r, _poll exWaiting 0 InvResult.timeout (InvResult.ok "x") = Except.ok r)
    ∧ (¬(exWaiting.status = Status.done ∨ exWaiting.status = Status.failed)
      ∧ (_poll exWaiting 0 InvResult.timeout (InvResult.ok "x") = Except.ok (pollCore exWaiting 0 "x", 2)
         ∧ _poll exWaiting 0 (InvResult.ok "x") InvResult.timeout = Except.ok (pollCore exWaiting 0 "x", 2))) :=
  ⟨⟨by decide, by decide,
     c6_amended_timeout_tolerated.1 exWaiting 0 InvResult.timeout (InvResult.ok "x")
       (by decide) (by decide)⟩,
   ⟨by decide,
     c6_amended_timeout_tolerated.2 exWaiting 0 "x" (by decide)⟩⟩

/-- The head of a nonempty `dropWhile` result falsifies the predicate. -/
theorem dropWhile_head_false {p : Char → Bool} :
    ∀ {l : List Char} {a : Char} {r : List Char}, l.dropWhile p = a :: r → p a = false := by
  intro l
  induction l with
  | nil => intro a r h; exact absurd h (by simp)
  | cons c cs ih =>
    intro a r h
    rw [List.dropWhile_cons] at h
    split at h
    · exact ih h
    · rename_i hpc
      cases h
      simpa using hpc

/-- Splitting a list at the first predicate failure. -/
theorem spanAt_append {p : Char → Bool} {a : Char} (hpa : p a = false) :
    ∀ (ps : List Char), (∀ x ∈ ps, p x = true) → ∀ (t : List Char),
      (ps ++ a :: t).takeWhile p = ps ∧ (ps ++ a :: t).dropWhile p = a :: t := by
  intro ps
  induction ps with
  | nil =>
    intro _ t
    constructor
    · simp [List.takeWhile_cons, hpa]
    · simp [List.dropWhile_cons, hpa]
  | cons x xs ih =>
    intro hmem t
    have hx : p x = true := hmem x (by simp)
    obtain ⟨h1, h2⟩ := ih (fun y hy => hmem y (by simp [hy])) t
    constructor
    · simp only [List.cons_append, List.takeWhile_cons, hx, if_true, h1]
    · simp only [List.cons_append, List.dropWhile_cons, hx, if_true, h2]

/-- Anatomy of a successful `ansiMatch`: escape, bracket, parameter run, one
letter; the input splits as the match followed by the rest. -/
theorem ansiMatch_shape {s m r : List Char} (h : ansiMatch s = some (m, r)) :
    ∃ ps a, (∀ x ∈ ps, isParam x = true) ∧ isParam a = false ∧ a.isAlpha = true
      ∧ m = '\x1b' :: '[' :: (ps ++ [a]) ∧ s = m ++ r := by
  match s with
  | [] => exact absurd h (by simp [ansiMatch])
  | [c] => exact absurd h (by simp [ansiMatch])
  | c1 :: c2 :: rest =>
    by_cases hcc : c1 = '\x1b' ∧ c2 = '['
    · obtain ⟨hc1, hc2⟩ := hcc
      subst hc1
      subst hc2
      rw [show ansiMatch ('\x1b' :: '[' :: rest)
            = match rest.dropWhile isParam with
              | a :: r =>
                if a.isAlpha then some ('\x1b' :: '[' :: (rest.takeWhile isParam ++ [a]), r)
                else none
              | [] => none
          from by rw [ansiMatch]; rw [if_pos ⟨rfl, rfl⟩]] at h
      rcases hd : rest.dropWhile isParam with _ | ⟨a, r2⟩
      · rw [hd] at h
        exact absurd h (by simp)
      · rw [hd] at h
        have h2 : (if a.isAlpha = true
            then some (('\x1b' :: '[' :: (rest.takeWhile isParam ++ [a]), r2) : List Char × List Char)
            else none) = some (m, r) := h
        by_cases ha : a.isAlpha = true
        · rw [if_pos ha] at h2
          obtain ⟨hm, hr⟩ : '\x1b' :: '[' :: (rest.takeWhile isParam ++ [a]) = m ∧ r2 = r := by
            simpa using h2
          subst hr
          refine ⟨rest.takeWhile isParam, a, fun x hx => List.mem_takeWhile_imp hx,
            dropWhile_head_false hd, ha, hm.symm, ?_⟩
          rw [← hm]
          have hsplit : rest.takeWhile isParam ++ rest.dropWhile isParam = rest :=
            List.takeWhile_append_dropWhile isParam rest
          rw [hd] at hsplit
          simp only [List.cons_append, List.append_assoc, List.singleton_append,
            List.nil_append]
          rw [hsplit]
        · rw [if_neg ha] at h2
          exact absurd h2 (by simp)
    · rw [show ansiMatch (c1 :: c2 :: rest) = none
          from by rw [ansiMatch]; rw [if_neg hcc]] at h
      exact absurd h (by simp)

/-- The rest after a control-sequence match is strictly shorter. -/
theorem ansiMatch_rest_lt {s m r : List Char} (h : ansiMatch s = some (m, r)) :
    r.length < s.length := by
  obtain ⟨ps, a, _, _, _, hm, hs⟩ := ansiMatch_shape h
  rw [hs, hm]
  simp [List.length_append]
  omega

/-- No control sequence starts at a non-escape character. -/
theorem ansiMatch_none_of_head {c : Char} (hc : ¬(c = '\x1b')) (t : List Char) :
    ansiMatch (c :: t) = none := by
  match t with
  | [] => rfl
  | c2 :: rest => simp [ansiMatch, hc]

/-- A well-formed control sequence matches itself in front of any suffix. -/
theorem ansiMatch_append {ps : List Char} {a : Char} (t : List Char)
    (hps : ∀ x ∈ ps, isParam x = true) (hpa : isParam a = false) (ha : a.isAlpha = true) :
    ansiMatch (('\x1b' :: '[' :: (ps ++ [a])) ++ t)
      = some ('\x1b' :: '[' :: (ps ++ [a]), t) := by
  obtain ⟨htake, hdrop⟩ := spanAt_append hpa ps hps t
  have hlist : (('\x1b' :: '[' :: (ps ++ [a])) ++ t) = '\x1b' :: '[' :: (ps ++ a :: t) := by
    simp
  rw [hlist]
  show (match (ps ++ a :: t).dropWhile isParam with
      | a' :: r =>
        if a'.isAlpha then some ('\x1b' :: '[' :: ((ps ++ a :: t).takeWhile isParam ++ [a']), r)
        else none
      | [] => none) = some ('\x1b' :: '[' :: (ps ++ [a]), t)
  rw [hdrop]
  show (if a.isAlpha = true
      then some (('\x1b' :: '[' :: ((ps ++ a :: t).takeWhile isParam ++ [a]), t) : List Char × List Char)
      else none) = some ('\x1b' :: '[' :: (ps ++ [a]), t)
  rw [if_pos ha, htake]

/-- `visTruncF` does not depend on the fuel, once sufficient. -/
theorem visTruncF_congr (width : Nat) (f1 f2 : Nat) (s : List Char) (visible : Nat)
    (h1 : s.length ≤ f1) (h2 : s.length ≤ f2) :
    visTruncF width f1 s visible = visTruncF width f2 s visible := by
  induction f1 generalizing f2 s visible with
  | zero =>
    have hs : s = [] := List.length_eq_zero.mp (Nat.le_zero.mp h1)
    subst hs
    cases f2 <;> rfl
  | succ f1 ih =>
    cases f2 with
    | zero =>
      have hs : s = [] := List.length_eq_zero.mp (Nat.le_zero.mp h2)
      subst hs
      rfl
    | succ f2 =>
      simp only [visTruncF]
      rcases hm : ansiMatch s with _ | mr
      · rcases s with _ | ⟨c, rest⟩
        · rfl
        · simp only [List.length_cons] at h1 h2
          show (if width ≤ visible then [] else c :: visTruncF width f1 rest (visible + 1))
            = (if width ≤ visible then [] else c :: visTruncF width f2 rest (visible + 1))
          by_cases hw : width ≤ visible
          · rw [if_pos hw, if_pos hw]
          · rw [if_neg hw, if_neg hw, ih f2 rest (visible + 1) (by omega) (by omega)]
      · obtain ⟨m, r⟩ := mr
        have hlt : r.length < s.length := ansiMatch_rest_lt hm
        show m ++ visTruncF width f1 r visible = m ++ visTruncF width f2 r visible
        rw [ih f2 r visible (by omega) (by omega)]

/-- `stripAnsiF` does not depend on the fuel, once sufficient. -/
theorem stripAnsiF_congr (f1 f2 : Nat) (s : List Char)
    (h1 : s.length ≤ f1) (h2 : s.length ≤ f2) :
    stripAnsiF f1 s = stripAnsiF f2 s := by
  induction f1 generalizing f2 s with
  | zero =>
    have hs : s = [] := List.length_eq_zero.mp (Nat.le_zero.mp h1)
    subst hs
    cases f2 <;> rfl
  | succ f1 ih =>
    cases f2 with
    | zero =>
      have hs : s = [] := List.length_eq_zero.mp (Nat.le_zero.mp h2)
      subst hs
      rfl
    | succ f2 =>
      simp only [stripAnsiF]
      rcases hm : ansiMatch s with _ | mr
      · rcases s with _ | ⟨c, rest⟩
        · rfl
        · simp only [List.length_cons] at h1 h2
          show c :: stripAnsiF f1 rest = c :: stripAnsiF f2 rest
          rw [ih f2 rest (by omega) (by omega)]
      · obtain ⟨m, r⟩ := mr
        have hlt : r.length < s.length := ansiMatch_rest_lt hm
        show stripAnsiF f1 r = stripAnsiF f2 r
        rw [ih f2 r (by omega) (by omega)]

/-- `tokenizeF` does not depend on the fuel, once sufficient. -/
theorem tokenizeF_congr (f1 f2 : Nat) (s : List Char)
    (h1 : s.length ≤ f1) (h2 : s.length ≤ f2) :
    tokenizeF f1 s = tokenizeF f2 s := by
  induction f1 generalizing f2 s with
  | zero =>
    have hs : s = [] := List.length_eq_zero.mp (Nat.le_zero.mp h1)
    subst hs
    cases f2 <;> rfl
  | succ f1 ih =>
    cases f2 with
    | zero =>
      have hs : s = [] := List.length_eq_zero.mp (Nat.le_zero.mp h2)
      subst hs
      rfl
    | succ f2 =>
      simp only [tokenizeF]
      rcases hm : ansiMatch s with _ | mr
      · rcases s with _ | ⟨c, rest⟩
        · rfl
        · simp only [List.length_cons] at h1 h2
          show [c] :: tokenizeF f1 rest = [c] :: tokenizeF f2 rest
          rw [ih f2 rest (by omega) (by omega)]
      · obtain ⟨m, r⟩ := mr
        have hlt : r.length < s.length := ansiMatch_rest_lt hm
        show m :: tokenizeF f1 r = m :: tokenizeF f2 r
        rw [ih f2 r (by omega) (by omega)]

/-- Unfolding `visTruncGo` on the empty text. -/
theorem visTruncGo_nil (width visible : Nat) : visTruncGo width [] visible = [] := rfl

/-- Unfolding `visTruncGo` at a control sequence: the whole sequence is kept. -/
theorem visTruncGo_seq (width visible : Nat) {s m r : List Char}
    (h : ansiMatch s = some (m, r)) :
    visTruncGo width s visible = m ++ visTruncGo width r visible := by
  have hlt : r.length < s.length := ansiMatch_rest_lt h
  rcases s with _ | ⟨c, rest⟩
  · exact absurd h (by simp [ansiMatch])
  · show visTruncF width (rest.length + 1) (c :: rest) visible = _
    simp only [visTruncF, h]
    show m ++ visTruncF width rest.length r visible = m ++ visTruncGo width r visible
    rw [visTruncF_congr width rest.length r.length r visible (by simpa using Nat.lt_succ_iff.mp hlt) (le_refl _)]
    rfl

/-- Unfolding `visTruncGo` at a plain character: stop or keep and count. -/
theorem visTruncGo_plain (width visible : Nat) {c : Char} {rest : List Char}
    (h : ansiMatch (c :: rest) = none) :
    visTruncGo width (c :: rest) visible =
      if width ≤ visible then [] else c :: visTruncGo width rest (visible + 1) := by
  show visTruncF width (rest.length + 1) (c :: rest) visible = _
  simp only [visTruncF, h]
  rfl

/-- Unfolding `stripAnsi` on the empty text. -/
theorem stripAnsi_nil : stripAnsi [] = [] := rfl

/-- Unfolding `stripAnsi` at a control sequence: the sequence is removed. -/
theorem stripAnsi_seq {s m r : List Char} (h : ansiMatch s = some (m, r)) :
    stripAnsi s = stripAnsi r := by
  have hlt : r.length < s.length := ansiMatch_rest_lt h
  rcases s with _ | ⟨c, rest⟩
  · exact absurd h (by simp [ansiMatch])
  · show stripAnsiF (rest.length + 1) (c :: rest) = _
    simp only [stripAnsiF, h]
    exact stripAnsiF_congr rest.length r.length r (by simpa using Nat.lt_succ_iff.mp hlt) (le_refl _)

/-- Unfolding `stripAnsi` at a plain character: the character is visible. -/
theorem stripAnsi_plain {c : Char} {rest : List Char} (h : ansiMatch (c :: rest) = none) :
    stripAnsi (c :: rest) = c :: stripAnsi rest := by
  show stripAnsiF (rest.length + 1) (c :: rest) = _
  simp only [stripAnsiF, h]
  rfl

/-- Unfolding `tokenize` on the empty text. -/
theorem tokenize_nil : tokenize [] = [] := rfl

/-- Unfolding `tokenize` at a control sequence. -/
theorem tokenize_seq {s m r : List Char} (h : ansiMatch s = some (m, r)) :
    tokenize s = m :: tokenize r := by
  have hlt : r.length < s.length := ansiMatch_rest_lt h
  rcases s with _ | ⟨c, rest⟩
  · exact absurd h (by simp [ansiMatch])
  · show tokenizeF (rest.length + 1) (c :: rest) = _
    simp only [tokenizeF, h]
    show m :: tokenizeF rest.length r = m :: tokenize r
    rw [tokenizeF_congr rest.length r.length r (by simpa using Nat.lt_succ_iff.mp hlt) (le_refl _)]
    rfl

/-- Unfolding `tokenize` at a plain character. -/
theorem tokenize_plain {c : Char} {rest : List Char} (h : ansiMatch (c :: rest) = none) :
    tokenize (c :: rest) = [c] :: tokenize rest := by
  show tokenizeF (rest.length + 1) (c :: rest) = _
  simp only [tokenizeF, h]
  rfl

/-- Stripping past characters that are not the escape character keeps them. -/
theorem stripAnsi_no_esc_append {u : List Char} (hu : ∀ x ∈ u, ¬(x = '\x1b')) :
    ∀ (t : List Char), stripAnsi (u ++ t) = u ++ stripAnsi t := by
  induction u with
  | nil => intro t; rfl
  | cons c cs ih =>
    intro t
    have hc : ¬(c = '\x1b') := hu c (by simp)
    rw [List.cons_append, stripAnsi_plain (ansiMatch_none_of_head hc (cs ++ t)),
      ih (fun x hx => hu x (by simp [hx])) t]
    rfl

/-- Prepending a matched control sequence does not change the visible
characters. -/
theorem stripAnsi_seq_prepend {s m r : List Char} (h : ansiMatch s = some (m, r))
    (t : List Char) : stripAnsi (m ++ t) = stripAnsi t := by
  obtain ⟨ps, a, hps, hpa, ha, hm, _⟩ := ansiMatch_shape h
  subst hm
  exact stripAnsi_seq (ansiMatch_append t hps hpa ha)

/-- Characters of the `isParam` class are not the escape character. -/
theorem isParam_ne_esc {x : Char} (hx : isParam x = true) : ¬(x = '\x1b') := by
  intro he
  subst he
  exact absurd hx (by decide)

/-- Letters are not the escape character. -/
theorem isAlpha_ne_esc {x : Char} (hx : x.isAlpha = true) : ¬(x = '\x1b') := by
  intro he
  subst he
  exact absurd hx (by decide)

/-- One plain character adds at most one to the visible length, whatever the
following text is: either it stays visible, or it is an escape character that
now heads a complete control sequence, which only removes characters. -/
theorem stripAnsi_cons_length (c : Char) (t : List Char) :
    (stripAnsi (c :: t)).length ≤ (stripAnsi t).length + 1 := by
  rcases hm : ansiMatch (c :: t) with _ | ⟨m, r⟩
  · rw [stripAnsi_plain hm]
    simp
  · rw [stripAnsi_seq hm]
    obtain ⟨ps, a, hps, hpa, ha, hm', hs⟩ := ansiMatch_shape hm
    have ht : t = ('[' :: (ps ++ [a])) ++ r := by
      rw [hm'] at hs
      simp only [List.cons_append, List.append_assoc, List.singleton_append] at hs ⊢
      exact (List.cons.injEq .. ▸ hs).2
    have hnoesc : ∀ x ∈ ('[' :: (ps ++ [a])), ¬(x = '\x1b') := by
      intro x hx
      rcases List.mem_cons.mp hx with hbr | hx2
      · subst hbr; decide
      · rcases List.mem_append.mp hx2 with hx3 | hx4
        · exact isParam_ne_esc (hps x hx3)
        · rw [List.mem_singleton.mp hx4]
          exact isAlpha_ne_esc ha
    rw [ht, stripAnsi_no_esc_append hnoesc]
    simp
    omega

/-- The visible length of the kept text plus a fully-stripped tail stays within
the width budget minus the running count. -/
theorem visTrunc_strip_bound (width : Nat) (tail : List Char) (htail : stripAnsi tail = []) :
    ∀ (N : Nat) (s : List Char) (visible : Nat), s.length ≤ N → visible ≤ width →
      (stripAnsi (visTruncGo width s visible ++ tail)).length + visible ≤ width := by
  intro N
  induction N with
  | zero =>
    intro s visible hN hv
    have hs : s = [] := List.length_eq_zero.mp (Nat.le_zero.mp hN)
    subst hs
    rw [visTruncGo_nil]
    simpa [htail] using hv
  | succ N ih =>
    intro s visible hN hv
    rcases hm : ansiMatch s with _ | ⟨m, r⟩
    · rcases s with _ | ⟨c, rest⟩
      · rw [visTruncGo_nil]
        simpa [htail] using hv
      · rw [visTruncGo_plain width visible hm]
        by_cases hw : width ≤ visible
        · rw [if_pos hw]
          have : visible = width := Nat.le_antisymm hv hw
          simp [htail, this]
        · rw [if_neg hw]
          have hih := ih rest (visible + 1) (by simp at hN; omega) (by omega)
          have hcons := stripAnsi_cons_length c (visTruncGo width rest (visible + 1) ++ tail)
          calc (stripAnsi ((c :: visTruncGo width rest (visible + 1)) ++ tail)).length + visible
              = (stripAnsi (c :: (visTruncGo width rest (visible + 1) ++ tail))).length + visible := by
                rw [List.cons_append]
            _ ≤ ((stripAnsi (visTruncGo width rest (visible + 1) ++ tail)).length + 1) + visible := by
                omega
            _ ≤ width := by omega
    · rw [visTruncGo_seq width visible hm, List.append_assoc, stripAnsi_seq_prepend hm]
      exact ih r visible (by have := ansiMatch_rest_lt hm; omega) hv

/-- The kept text is a whole-token prefix of the input's decomposition into
complete control sequences and single plain characters: a control sequence is
never split. -/
theorem visTrunc_whole_tokens (width : Nat) :
    ∀ (N : Nat) (s : List Char) (visible : Nat), s.length ≤ N →
      ∃ n, visTruncGo width s visible = ((tokenize s).take n).flatten := by
  intro N
  induction N with
  | zero =>
    intro s visible hN
    have hs : s = [] := List.length_eq_zero.mp (Nat.le_zero.mp hN)
    subst hs
    exact ⟨0, rfl⟩
  | succ N ih =>
    intro s visible hN
    rcases hm : ansiMatch s with _ | ⟨m, r⟩
    · rcases s with _ | ⟨c, rest⟩
      · exact ⟨0, rfl⟩
      · rw [visTruncGo_plain width visible hm, tokenize_plain hm]
        by_cases hw : width ≤ visible
        · rw [if_pos hw]
          exact ⟨0, rfl⟩
        · rw [if_neg hw]
          obtain ⟨n, hn⟩ := ih rest (visible + 1) (by simp at hN; omega)
          refine ⟨n + 1, ?_⟩
          rw [hn]
          simp [List.take_succ_cons]
    · rw [visTruncGo_seq width visible hm, tokenize_seq hm]
      obtain ⟨n, hn⟩ := ih r visible (by have := ansiMatch_rest_lt hm; omega)
      refine ⟨n + 1, ?_⟩
      rw [hn]
      simp [List.take_succ_cons]

/-- C8: truncating any text with embedded color-control sequences to a target
width `w` yields an output whose visible length (characters excluding control
sequences) is at most `w`; if the output contains any control sequence — in
particular any escape character — it ends with the reset sequence; and the
kept text is a whole-token prefix of the input's decomposition into complete
control sequences and single characters, so control sequences are never split
mid-sequence. -/
theorem c8_vis_trunc_spec (s : List Char) (w : Nat) :
    visLen (_vis_trunc s w) ≤ w
    ∧ ((_vis_trunc s w).contains '\x1b' = true → ansiReset <:+ _vis_trunc s w)
    ∧ (∃ n, visTruncGo w s 0 = ((tokenize s).take n).flatten) := by
  refine ⟨?_, ?_, visTrunc_whole_tokens w s.length s 0 (le_refl _)⟩
  · unfold _vis_trunc visLen
    by_cases hesc : (visTruncGo w s 0).contains '\x1b' = true
    · rw [if_pos hesc]
      simpa using visTrunc_strip_bound w ansiReset (by decide) s.length s 0 (le_refl _)
        (Nat.zero_le _)
    · rw [if_neg hesc]
      have := visTrunc_strip_bound w [] rfl s.length s 0 (le_refl _) (Nat.zero_le _)
      simpa using this
  · intro h
    unfold _vis_trunc at h ⊢
    by_cases hesc : (visTruncGo w s 0).contains '\x1b' = true
    · rw [if_pos hesc]
      exact ⟨visTruncGo w s 0, rfl⟩
    · rw [if_neg hesc] at h
      exact absurd h hesc

/-- C8 witness: truncating `"ab\x1b[32mcd"` to width 3 keeps the whole color
sequence, so the output contains an escape and ends with the reset sequence. -/
theorem c8_vis_trunc_spec_witness :
    ((_vis_trunc "ab\x1b[32mcd".data 3).contains '\x1b' = true)
    ∧ ansiReset <:+ _vis_trunc "ab\x1b[32mcd".data 3 :=
  ⟨by decide, (c8_vis_trunc_spec "ab\x1b[32mcd".data 3).2.1 (by decide)⟩
